import Mathlib

/-!
Verification of the eva diagnostic/plotting orchestrator core against its
natural-language specification.

The development shallowly embeds the Python sources:
  * `src/eva/utilities/utils.py`  (`camelcase_to_underscore`, `get_schema`)
  * `src/eva/base.py`             (`Config.__init__`)
  * `src/eva/plot_tools/figure_driver.py`
    (`FigureDriver.execute` batch branch, `make_figure` tail, `get_saveargs`)

Python strings are embedded as `List Char` (the claims only involve ASCII
text, and the character predicates `isalpha`/`isupper`/`islower` are embedded
by their ASCII behaviour).  Python dicts are embedded as insertion-ordered
association lists, exceptions as `Except`, and object identity — where a claim
is about aliasing — as an explicit address/heap model.
-/

namespace Eva

/-- Python exception outcomes relevant to the embedded code. -/
inductive PyErr where
  /-- `NameError`: a name was referenced that is not bound in the scope. -/
  | nameError (n : List Char)
  /-- `KeyError`: dict lookup or deletion of an absent key. -/
  | keyError (k : List Char)
  /-- `ValueError` raised by validation code. -/
  | valueError
  /-- `TypeError` raised by validation code. -/
  | typeError
  /-- `logger.abort`: fatal termination requested by the code. -/
  | abort
  /-- dangling reference in the heap model (never arises from the claims). -/
  | badRef
  /-- an exception raised by the external save collaborator. -/
  | saveError
  deriving DecidableEq, Repr

/-- Python scalar values: the channel tokens the figure driver manipulates. -/
inductive PyScalar where
  | int (i : Int)
  | str (s : List Char)
  deriving DecidableEq, Repr

/-- Embedded Python values: scalars plus nested sequences and mappings,
as they occur in parsed YAML configurations. -/
inductive PyVal where
  | int (i : Int)
  | str (s : List Char)
  | list (xs : List PyVal)
  | dict (es : List (List Char × PyVal))

instance : Inhabited PyVal := ⟨.int 0⟩

/-- A Python dict: insertion-ordered association list with unique keys. -/
abbrev Dict := List (List Char × PyVal)

/-- Dict lookup (`d[k]` read / `k in d`): first entry with the key. -/
def dLookup : Dict → List Char → Option PyVal
  | [], _ => none
  | e :: rest, k => if e.1 = k then some e.2 else dLookup rest k

/-- Python `k in d`. -/
def dContains (d : Dict) (k : List Char) : Bool :=
  (dLookup d k).isSome

/-- Python `d[k] = v`: overwrite in place when the key exists (keeping its
position), append otherwise. -/
def dSet : Dict → List Char → PyVal → Dict
  | [], k, v => [(k, v)]
  | e :: rest, k, v => if e.1 = k then (k, v) :: rest else e :: dSet rest k v

/-- Python `del d[k]`: remove the entry, `KeyError` when absent. -/
def dDel : Dict → List Char → Except PyErr Dict
  | [], k => .error (.keyError k)
  | e :: rest, k =>
    if e.1 = k then .ok rest else (dDel rest k).map (fun d => e :: d)

/-- Python `d.get(k, default)`. -/
def dGetD (d : Dict) (k : List Char) (v : PyVal) : PyVal :=
  (dLookup d k).getD v

/-- Python `d[k]` read raising `KeyError` when the key is absent. -/
def dIndex (d : Dict) (k : List Char) : Except PyErr PyVal :=
  match dLookup d k with
  | some v => .ok v
  | none => .error (.keyError k)

/-! ## `camelcase_to_underscore` (src/eva/utilities/utils.py lines 17-52) -/

/-- Body of the per-character loop of `camelcase_to_underscore`: an uppercase
character becomes an underscore followed by its lowercase form, any other
character passes through. -/
def underscoreChar (c : Char) : List Char :=
  if c.isUpper then ['_', c.toLower] else [c]

/-- Python `str.isalpha` restricted to ASCII letters (all inputs the claims
range over are ASCII). -/
def pyIsAlpha (s : List Char) : Bool :=
  !s.isEmpty && s.all Char.isAlpha

/-- Lines 49-50: `if underscore_string[0] == "_": underscore_string =
underscore_string[1:]` (the empty case cannot arise after the `isalpha`
check). -/
def stripLeadUnderscore : List Char → List Char
  | [] => []
  | c :: rest => if c = '_' then rest else c :: rest

/-- Embeds `camelcase_to_underscore` from `src/eva/utilities/utils.py`:
validates that the input is purely alphabetic (`ValueError` otherwise; the
`TypeError` branch for non-string arguments is outside a string-typed
embedding), maps each character through `underscoreChar`, and strips one
leading underscore from the concatenation when present. -/
def camelcase_to_underscore (s : List Char) : Except PyErr (List Char) :=
  if pyIsAlpha s then .ok (stripLeadUnderscore (s.flatMap underscoreChar))
  else .error .valueError

/-! ## `get_schema` (src/eva/utilities/utils.py lines 76-98)

The function first loads the base schema from a YAML file; file input is
beyond the embedding, so the already-loaded base mapping `fullConfig` is a
parameter.  The merge loop is embedded line by line; note that the source
condition is `if key in fullConfig or skipvars:`, whose right operand is the
truthiness of the `skipvars` list itself. -/

/-- The fixed ignore-list `skipvars = ['type', 'comparison']`. -/
def skipvars : List (List Char) :=
  [("type").toList, ("comparison").toList]

/-- Embeds the override loop of `get_schema`:
`for key, value in configDict.items(): if key in fullConfig or skipvars: fullConfig[key] = value else: raise ValueError(...)`. -/
def get_schema (fullConfig : Dict) (configDict : Dict) : Except PyErr Dict :=
  configDict.foldl
    (fun acc e =>
      acc.bind (fun fc =>
        if dContains fc e.1 || !skipvars.isEmpty then .ok (dSet fc e.1 e.2)
        else .error .valueError))
    (.ok fullConfig)

/-! ## `Config.__init__` (src/eva/base.py lines 51-69) -/

/-- The names bound in the scope of `Config.__init__` when its first
statements run: the two parameters.  (`config` is assigned only at lines
62/64, after the `print` calls at lines 57-58.) -/
def config_init_scope : List (List Char) :=
  [("self").toList, ("dict_or_yaml").toList]

/-- Evaluating a bare name in a scope: `NameError` when it is not bound. -/
def pyNameRef (scope : List (List Char)) (n : List Char) : Except PyErr Unit :=
  if n ∈ scope then .ok () else .error (.nameError n)

/-- Embeds `Config.__init__` from `src/eva/base.py`.  The body first executes
`print("  Diagnostic:    ", eva_class_name)` (line 57) and
`print("  Configuration: ", config)` (line 58); evaluating those arguments
looks up names that are not bound at that point.  The remainder of the body
(type dispatch at lines 61-64 and `super().__init__(config)` at line 69) is
embedded afterwards; the YAML branch is file input, represented by the
pre-parsed mapping carried in the argument, and is unreachable anyway. -/
def config_init (dict_or_yaml : PyVal) : Except PyErr Dict := do
  let _ ← pyNameRef config_init_scope (("eva_class_name").toList)
  let _ ← pyNameRef config_init_scope (("config").toList)
  match dict_or_yaml with
  | .dict es => .ok es
  | .str _ => .ok []
  | _ => .error .typeError

/-! ## `FigureDriver.execute`, batch branch
(src/eva/plot_tools/figure_driver.py lines 56-92) -/

/-- Decimal digits of a natural number, most significant first (`fuel`-driven
recursion; `fuel > n` suffices). -/
def natDigitsAux (fuel : Nat) (n : Nat) : List Char :=
  match fuel with
  | 0 => []
  | fuel' + 1 =>
    if n < 10 then [Nat.digitChar n]
    else natDigitsAux fuel' (n / 10) ++ [Nat.digitChar (n % 10)]

/-- Python `str` on an integer: decimal form with a leading minus sign for
negative values. -/
def pyStrInt (i : Int) : List Char :=
  if i < 0 then '-' :: natDigitsAux (i.natAbs + 1) i.natAbs
  else natDigitsAux (i.natAbs + 1) i.natAbs

/-- Python `str(channel)` (line 76) on the embedded channel scalars. -/
def pyStr : PyScalar → List Char
  | .int i => pyStrInt i
  | .str s => s

/-- Python `str.title` restricted to ASCII: a letter is uppercased when the
previous character is not a letter and lowercased otherwise; other characters
pass through. -/
def pyTitleAux : Bool → List Char → List Char
  | _, [] => []
  | prev, c :: rest =>
    (if c.isAlpha then (if prev then c.toLower else c.toUpper) else c)
      :: pyTitleAux c.isAlpha rest

/-- Python `s.title()`. -/
def pyTitle (s : List Char) : List Char :=
  pyTitleAux false s

/-- Line 75: `variable.replace('_', ' ').title()`. -/
def var_title_of (v : List Char) : List Char :=
  pyTitle (v.map (fun c => if c = '_' then ' ' else c))

/-- The string `'none'`, the no-channel sentinel of the batch loop. -/
def none_str : List Char := ("none").toList

/-- The literal `' Ch. '` inserted before the channel in a title (line 79). -/
def ch_sep : List Char := (" Ch. ").toList

/-- The per-iteration substitution mapping `batch_conf_this` (lines 72-80): a
`variable` entry (field `variable_name`; `variable` is reserved in Lean), a
`variable_title` entry, and a `channel` entry present exactly when the
channel's string form differs from `'none'`. -/
structure BatchCtx where
  variable_name : List Char
  variable_title : List Char
  channel : Option (List Char)
  deriving DecidableEq, Repr

/-- Builds `batch_conf_this` for one (variable, channel) iteration
(lines 72-80). -/
def batch_conf_this (v : List Char) (c : PyScalar) : BatchCtx :=
  let cs := pyStr c
  if cs ≠ none_str then
    { variable_name := v
      variable_title := var_title_of v ++ ch_sep ++ cs
      channel := some cs }
  else
    { variable_name := v, variable_title := var_title_of v, channel := none }

/-- The title a batch iteration computes, as a function of the derived
variable title and the channel's string form (factored form of the
`variable_title` field of `batch_conf_this`, used by the distinctness
analysis). -/
def title_with_channel (t s : List Char) : List Char :=
  if s = none_str then t else t ++ (ch_sep ++ s)

/-- The nested `for variable in variables: for channel in channels:` loops
(lines 70-71), collecting the iterations in execution order. -/
def execute_batch_loop (var_list : List (List Char)) (channels : List PyScalar) :
    List BatchCtx :=
  var_list.foldl
    (fun acc v => channels.foldl (fun acc2 c => acc2 ++ [batch_conf_this v c]) acc)
    []

/-- Lines 66-67: an empty channel list is replaced by the single sentinel
`['none']` so the inner loop is entered. -/
def effective_channels (channels : List PyScalar) : List PyScalar :=
  if channels.isEmpty then [.str none_str] else channels

/-- Embeds the batch branch of `FigureDriver.execute` (lines 56-89), given the
`variables` list and the already-parsed `channels` list: aborts when
`variables` is empty (line 64-65), substitutes the sentinel channel list when
`channels` is empty (lines 66-67), then runs the nested loops. -/
def execute_batch (var_list : List (List Char)) (channels : List PyScalar) :
    Except PyErr (List BatchCtx) :=
  if var_list.isEmpty then .error .abort
  else .ok (execute_batch_loop var_list (effective_channels channels))

/-- Digit-string check used by the modelled channel parser. -/
def allDigits (s : List Char) : Bool :=
  !s.isEmpty && s.all Char.isDigit

/-- Numeric value of a digit string. -/
def digitsToNat (s : List Char) : Nat :=
  s.foldl (fun acc c => acc * 10 + (c.toNat - 48)) 0

/-- Modelled from the spec: the string form accepted by the channel parser.
The spec exemplifies only the range form, `"1-2"` yielding channels 1 and 2;
a range `"a-b"` of decimal numerals parses to the inclusive integer range,
the empty string to no channels, and any other string stays a single token. -/
def parseChannelsStr (s : List Char) : List PyScalar :=
  if s.isEmpty then []
  else
    let a := s.takeWhile (fun c => c ≠ '-')
    let b := (s.dropWhile (fun c => c ≠ '-')).drop 1
    if allDigits a && allDigits b then
      (List.range' (digitsToNat a) (digitsToNat b + 1 - digitsToNat a)).map
        (fun n => PyScalar.int (Int.ofNat n))
    else [.str s]

/-- Modelled from the spec: `parse_channel_list` (imported by the figure
driver from `eva.utilities.utils` but absent from the sources) turns a
channels specification — "a string or list" — "into a concrete ordered list
of channel tokens". -/
def parse_channel_list : PyVal → List PyScalar
  | .str s => parseChannelsStr s
  | .int i => [.int i]
  | .list xs =>
    xs.filterMap (fun v =>
      match v with
      | .int i => some (PyScalar.int i)
      | .str s => some (PyScalar.str s)
      | _ => none)
  | .dict _ => []

/-! ## Template substitution (lines 82-86)

`replace_vars_dict` is imported from `eva.utilities.utils` but absent from
the sources; it is modelled from the spec: a "template-substitution utility
operating recursively over nested mappings/sequences/strings" that
"deep-copies the original figure/plot configuration and performs textual
template substitution of every `{variable}`-style placeholder using the
BatchContext's key/value pairs". -/

/-- Lookup in a string-to-string association list. -/
def sLookup : List (List Char × List Char) → List Char → Option (List Char)
  | [], _ => none
  | e :: rest, k => if e.1 = k then some e.2 else sLookup rest k

/-- The key/value pairs `**batch_conf_this` passed to the substitution. -/
def ctx_assoc (b : BatchCtx) : List (List Char × List Char) :=
  [(("variable").toList, b.variable_name),
   (("variable_title").toList, b.variable_title)] ++
  (match b.channel with
   | some c => [(("channel").toList, c)]
   | none => [])

/-- Modelled from the spec: textual substitution of `\x7bname\x7d`
placeholders in one string.  The second argument is `none` outside a
placeholder and `some acc` (reversed key so far) inside one; an unknown key
or an unterminated placeholder is left as literal text. -/
def substAux (ctx : List (List Char × List Char)) :
    List Char → Option (List Char) → List Char
  | [], none => []
  | [], some acc => '\x7b' :: acc.reverse
  | c :: rest, none =>
    if c = '\x7b' then substAux ctx rest (some [])
    else c :: substAux ctx rest none
  | c :: rest, some acc =>
    if c = '\x7d' then
      (match sLookup ctx acc.reverse with
       | some v => v
       | none => '\x7b' :: (acc.reverse ++ ['\x7d'])) ++ substAux ctx rest none
    else substAux ctx rest (some (c :: acc))

/-- Modelled from the spec: `replace_vars_dict` rebuilds the value
recursively — every produced mapping and sequence node is a fresh object —
substituting placeholders in every string. -/
def replace_vars_dict (ctx : List (List Char × List Char)) : PyVal → PyVal
  | .int i => .int i
  | .str s => .str (substAux ctx s none)
  | .list xs => .list (xs.attach.map (fun x => replace_vars_dict ctx x.1))
  | .dict es => .dict (es.attach.map (fun e => (e.1.1, replace_vars_dict ctx e.1.2)))
termination_by v => sizeOf v
decreasing_by
  · have := List.sizeOf_lt_of_mem x.2
    simp [PyVal.list.sizeOf_spec]
    omega
  · have h1 := List.sizeOf_lt_of_mem e.2
    obtain ⟨⟨k, v⟩, hm⟩ := e
    simp [PyVal.dict.sizeOf_spec] at h1 ⊢
    omega

/-- Lines 82-86 for one iteration: the (figure, plots) configuration pair
produced from one `batch_conf_this` (the `copy.copy` is subsumed by the
rebuilding substitution). -/
def batch_pair (figure_conf plots_conf : PyVal) (b : BatchCtx) : PyVal × PyVal :=
  (replace_vars_dict (ctx_assoc b) figure_conf,
   replace_vars_dict (ctx_assoc b) plots_conf)

/-- The full list of (figure, plots) configuration pairs of a batch run. -/
def batch_pairs (figure_conf plots_conf : PyVal) (ctxs : List BatchCtx) :
    List (PyVal × PyVal) :=
  ctxs.map (batch_pair figure_conf plots_conf)

/-! ## `FigureDriver.get_saveargs` (lines 147-153) -/

def layout_key : List Char := ("layout").toList
def file_type_key : List Char := ("figure file type").toList
def output_path_key : List Char := ("output path").toList
def figure_size_key : List Char := ("figure size").toList
def title_key : List Char := ("title").toList
def format_key : List Char := ("format").toList

/-- The list `delvars` of line 149, in source order. -/
def delvars : List (List Char) :=
  [layout_key, file_type_key, output_path_key, figure_size_key, title_key]

/-- `for d in delvars: del out_conf[d]` (lines 151-152). -/
def dDelAll : Dict → List (List Char) → Except PyErr Dict
  | d, [] => .ok d
  | d, k :: ks => (dDel d k).bind (fun d2 => dDelAll d2 ks)

/-- The update `get_saveargs` performs on the dict object it was handed:
`out_conf['format'] = figure_conf['figure file type']` (line 150, `KeyError`
when the key is absent) followed by deletion of every `delvars` key
(lines 151-152, `KeyError` when one is absent). -/
def get_saveargs_update (figure_conf : Dict) : Except PyErr Dict := do
  let v ← dIndex figure_conf file_type_key
  dDelAll (dSet figure_conf format_key v) delvars

/-- A heap of dict objects, for the claims about object identity. -/
abbrev Heap := List (Nat × Dict)

def hLookup : Heap → Nat → Option Dict
  | [], _ => none
  | e :: rest, a => if e.1 = a then some e.2 else hLookup rest a

def hUpdate : Heap → Nat → Dict → Heap
  | [], _, _ => []
  | e :: rest, a, d => if e.1 = a then (a, d) :: rest else e :: hUpdate rest a d

/-- Embeds `FigureDriver.get_saveargs` (lines 147-153) with explicit object
identity: `out_conf = figure_conf` makes `out_conf` an alias of the argument
object, so the update acts on the caller's object at address `a` and the
method returns that same address, not a copy. -/
def get_saveargs (h : Heap) (a : Nat) : Except PyErr (Nat × Heap) :=
  match hLookup h a with
  | none => .error .badRef
  | some conf => (get_saveargs_update conf).map (fun conf2 => (a, hUpdate h a conf2))

/-! ## The figure-lifecycle tail of `FigureDriver.make_figure`
(lines 135-145) -/

/-- Externally visible figure-resource events of `make_figure`. -/
inductive FigEvent where
  | createFigure
  | addSuptitle
  | saveFigure
  | closeFigure
  deriving DecidableEq, Repr

/-- Embeds lines 135-145 of `make_figure`: construct the figure from
`layout` and `figure size` (direct indexing, `KeyError` when absent), set the
suptitle when `'title' in figure_conf`, compute save arguments (which can
raise, lines 147-153), call the external `save_figure`, then `close_figure`.
The preceding plot-layer loop does not touch the figure object and is
abstracted.  `save_raises` says whether the external save collaborator
raises; the result is the ordered event trace paired with the exception the
method propagates, if any — an exception anywhere skips the rest of the
straight-line body. -/
def make_figure_tail (figure_conf : Dict) (save_raises : Bool) :
    List FigEvent × Option PyErr :=
  match dIndex figure_conf layout_key with
  | .error e => ([], some e)
  | .ok _ =>
    match dIndex figure_conf figure_size_key with
    | .error e => ([], some e)
    | .ok _ =>
      let ev1 : List FigEvent := [.createFigure]
      let ev2 := if dContains figure_conf title_key then ev1 ++ [.addSuptitle] else ev1
      match get_saveargs_update figure_conf with
      | .error e => (ev2, some e)
      | .ok _ =>
        if save_raises then (ev2 ++ [.saveFigure], some .saveError)
        else (ev2 ++ [.saveFigure, .closeFigure], none)

/-! ## Object identity of the produced configuration pairs

Python distinguishes equal values held in distinct objects; the deep-copy
claim about the batch expansion is a claim about object identity.  The model
gives every mapping and sequence node an address: a value produced by the
(spec-modelled, freshly rebuilding) substitution has all its nodes allocated
at addresses taken from a monotonically advancing allocation counter, exactly
as CPython allocates fresh objects for a rebuilt structure. -/

/-- A `PyVal` whose mapping and sequence nodes carry object addresses. -/
inductive AnnVal where
  | int (i : Int)
  | str (s : List Char)
  | list (addr : Nat) (xs : List AnnVal)
  | dict (addr : Nat) (es : List (List Char × AnnVal))

mutual

/-- Allocates the compound nodes of a freshly built value at consecutive
addresses starting from the counter `n`; returns the addressed value and the
advanced counter. -/
def annotate : Nat → PyVal → AnnVal × Nat
  | n, .int i => (.int i, n)
  | n, .str s => (.str s, n)
  | n, .list xs =>
    let r := annotateList (n + 1) xs
    (.list n r.1, r.2)
  | n, .dict es =>
    let r := annotateEntries (n + 1) es
    (.dict n r.1, r.2)

def annotateList : Nat → List PyVal → List AnnVal × Nat
  | n, [] => ([], n)
  | n, v :: rest =>
    let r1 := annotate n v
    let r2 := annotateList r1.2 rest
    (r1.1 :: r2.1, r2.2)

def annotateEntries : Nat → List (List Char × PyVal) → List (List Char × AnnVal) × Nat
  | n, [] => ([], n)
  | n, e :: rest =>
    let r1 := annotate n e.2
    let r2 := annotateEntries r1.2 rest
    ((e.1, r1.1) :: r2.1, r2.2)

end

mutual

/-- The addresses of all mapping and sequence nodes inside a value. -/
def annAddrs : AnnVal → List Nat
  | .int _ => []
  | .str _ => []
  | .list a xs => a :: annAddrsList xs
  | .dict a es => a :: annAddrsEntries es

def annAddrsList : List AnnVal → List Nat
  | [] => []
  | v :: rest => annAddrs v ++ annAddrsList rest

def annAddrsEntries : List (List Char × AnnVal) → List Nat
  | [] => []
  | e :: rest => annAddrs e.2 ++ annAddrsEntries rest

end

/-- One batch iteration (lines 82-86) at the object level: both
configurations are rebuilt by the substitution, so every node of the
produced pair is freshly allocated. -/
def alloc_pair (n : Nat) (figure_conf plots_conf : PyVal) (b : BatchCtx) :
    (AnnVal × AnnVal) × Nat :=
  let rf := annotate n (replace_vars_dict (ctx_assoc b) figure_conf)
  let rp := annotate rf.2 (replace_vars_dict (ctx_assoc b) plots_conf)
  ((rf.1, rp.1), rp.2)

/-- The batch loop at the object level: the pairs of all iterations, with the
allocation counter threaded through in execution order. -/
def alloc_pairs : Nat → PyVal → PyVal → List BatchCtx → List (AnnVal × AnnVal) × Nat
  | n, _, _, [] => ([], n)
  | n, fig, plots, b :: rest =>
    let r1 := alloc_pair n fig plots b
    let r2 := alloc_pairs r1.2 fig plots rest
    (r1.1 :: r2.1, r2.2)

/-- The addresses of the objects making up one produced pair. -/
def pairAddrs (p : AnnVal × AnnVal) : List Nat :=
  annAddrs p.1 ++ annAddrs p.2

/-! ## Claim-side definitions and concrete sample inputs -/

/-- The reconstruction the claim describes: re-capitalize at each
underscore-letter boundary, i.e. replace every `_x` pair by the uppercase
form of `x` and keep every other character.  (Spec-side definition, stated
from the claim's words.) -/
def recapitalize : List Char → List Char
  | [] => []
  | [c] => [c]
  | c1 :: c2 :: rest =>
    if c1 = '_' then c2.toUpper :: recapitalize rest
    else c1 :: recapitalize (c2 :: rest)

/-- Upper-case the first character (the amendment's extra step, needed to
recover a leading capital erased by the stripped underscore). -/
def capitalize_first : List Char → List Char
  | [] => []
  | c :: rest => c.toUpper :: rest

/-- A concrete figure configuration holding every structural key (used by
the concrete witnesses). -/
def sample_full_conf : Dict :=
  [(layout_key, PyVal.list [PyVal.int 1, PyVal.int 1]),
   (file_type_key, PyVal.str (("png").toList)),
   (output_path_key, PyVal.str (("./").toList)),
   (figure_size_key, PyVal.list [PyVal.int 8, PyVal.int 6]),
   (title_key, PyVal.str (("t").toList)),
   (("dpi").toList, PyVal.int 300)]

/-- A concrete figure configuration holding every structural key except
`title` (the failing input of the save-arguments claim). -/
def sample_no_title_conf : Dict :=
  [(layout_key, PyVal.list [PyVal.int 1, PyVal.int 1]),
   (file_type_key, PyVal.str (("png").toList)),
   (output_path_key, PyVal.str (("./").toList)),
   (figure_size_key, PyVal.list [PyVal.int 8, PyVal.int 6])]

/-- A concrete figure configuration missing `figure file type`. -/
def sample_no_file_type_conf : Dict :=
  [(layout_key, PyVal.list [PyVal.int 1, PyVal.int 1]),
   (output_path_key, PyVal.str (("./").toList)),
   (figure_size_key, PyVal.list [PyVal.int 8, PyVal.int 6]),
   (title_key, PyVal.str (("t").toList))]

/-! ## Character facts for the ASCII case maps -/

theorem char_toNat_ofNat (n : Nat) (h : n.isValidChar) : (Char.ofNat n).toNat = n := by
  simp [Char.ofNat, h, Char.ofNatAux, Char.toNat, UInt32.toNat, UInt32.ofNatCore]

theorem uint32_le_iff (a b : UInt32) : a ≤ b ↔ a.toNat ≤ b.toNat := by
  simp [UInt32.le_def, BitVec.le_def, UInt32.toNat]

theorem isUpper_toNat_bounds (c : Char) (h : c.isUpper) :
    65 ≤ c.toNat ∧ c.toNat ≤ 90 := by
  simp only [Char.isUpper, Bool.and_eq_true, decide_eq_true_eq, ge_iff_le] at h
  constructor
  · have := (uint32_le_iff 65 c.val).mp h.1
    simpa [Char.toNat] using this
  · have := (uint32_le_iff c.val 90).mp h.2
    simpa [Char.toNat] using this

theorem char_eq_of_toNat_eq (c d : Char) (h : c.toNat = d.toNat) : c = d :=
  Char.eq_of_val_eq (UInt32.ext h)

theorem toNat_toLower_of_isUpper (c : Char) (h : c.isUpper) :
    c.toLower.toNat = c.toNat + 32 := by
  obtain ⟨h1, h2⟩ := isUpper_toNat_bounds c h
  simp only [Char.toLower]
  rw [if_pos (by omega)]
  exact char_toNat_ofNat _ (Or.inl (by omega))

theorem toUpper_toLower_of_isUpper (c : Char) (h : c.isUpper) :
    c.toLower.toUpper = c := by
  obtain ⟨h1, h2⟩ := isUpper_toNat_bounds c h
  have hval := toNat_toLower_of_isUpper c h
  have key : c.toLower.toUpper.toNat = c.toNat := by
    simp only [Char.toUpper]
    rw [hval, if_pos (by omega)]
    rw [char_toNat_ofNat _ (Or.inl (by omega))]
    omega
  exact char_eq_of_toNat_eq _ _ key

theorem toLower_ne_underscore (c : Char) (h : c.isUpper) : c.toLower ≠ '_' := by
  have hval := toNat_toLower_of_isUpper c h
  obtain ⟨h1, h2⟩ := isUpper_toNat_bounds c h
  intro hc
  rw [hc] at hval
  have hu : ('_').toNat = 95 := by decide
  omega

theorem isAlpha_ne_underscore (c : Char) (h : c.isAlpha) : c ≠ '_' := by
  intro hc
  subst hc
  exact absurd h (by decide)

/-! ## Claim C1 -/

/-- Claim C1 (code_bug evidence): the spec says constructing the
`Configuration` object from any dict succeeds and the result behaves as that
mapping.  The embedded `Config.__init__` instead raises
`NameError: eva_class_name` for every argument, because the leftover debug
`print` at line 57 of `src/eva/base.py` references a name bound in no scope
of the method (and line 58 references `config` before its assignment). -/
theorem c1_config_init_always_raises (v : PyVal) :
    config_init v = .error (.nameError (("eva_class_name").toList)) := rfl

/-! ## Claim C2 -/

/-- Claim C2 (code_bug evidence): the spec says a schema-override key absent
from the base mapping and from the ignore-list fails with an
unknown-schema-key error.  In the embedded `get_schema`, merging the unknown
key `bogus` into a base schema holding only `layout` succeeds and inserts
`bogus`, because the source condition `key in fullConfig or skipvars` tests
the truthiness of the nonempty `skipvars` list, so the error branch is
unreachable; the in-base overwrite half of the sentence (first conjunct, with
`layout` overwritten to `[2, 2]`) does hold. -/
theorem c2_unknown_key_accepted :
    get_schema [(layout_key, PyVal.list [PyVal.int 1, PyVal.int 1])]
        [(layout_key, PyVal.list [PyVal.int 2, PyVal.int 2])] =
      .ok [(layout_key, PyVal.list [PyVal.int 2, PyVal.int 2])] ∧
    get_schema [(layout_key, PyVal.list [PyVal.int 1, PyVal.int 1])]
        [(("bogus").toList, PyVal.int 1)] =
      .ok [(layout_key, PyVal.list [PyVal.int 1, PyVal.int 1]),
           (("bogus").toList, PyVal.int 1)] :=
  ⟨rfl, rfl⟩

/-! ## Claim C5 -/

theorem underscoreChar_ne_nil (c : Char) : underscoreChar c ≠ [] := by
  unfold underscoreChar
  split <;> simp

theorem underscoreChar_of_isUpper (c : Char) (h : c.isUpper) :
    underscoreChar c = ['_', c.toLower] := by
  simp [underscoreChar, h]

theorem underscoreChar_of_not_isUpper (c : Char) (h : ¬c.isUpper) :
    underscoreChar c = [c] := by
  simp [underscoreChar, h]

/-- Re-capitalizing undoes the per-character expansion on alphabetic
strings. -/
theorem recapitalize_flatMap (s : List Char) (h : ∀ c ∈ s, c.isAlpha) :
    recapitalize (s.flatMap underscoreChar) = s := by
  induction s with
  | nil => rfl
  | cons c rest ih =>
    have hc : c.isAlpha := h c (by simp)
    have hrest : ∀ d ∈ rest, d.isAlpha := fun d hd => h d (by simp [hd])
    rw [List.flatMap_cons]
    by_cases hu : c.isUpper
    · rw [underscoreChar_of_isUpper c hu]
      simp only [List.cons_append, List.nil_append]
      rw [recapitalize]
      rw [if_pos rfl, toUpper_toLower_of_isUpper c hu, ih hrest]
    · rw [underscoreChar_of_not_isUpper c hu]
      simp only [List.cons_append, List.nil_append]
      cases rest with
      | nil => simp [recapitalize]
      | cons d rest' =>
        obtain ⟨x, L, hxL⟩ : ∃ x L, underscoreChar d = x :: L := by
          cases hud : underscoreChar d with
          | nil => exact absurd hud (underscoreChar_ne_nil d)
          | cons x L => exact ⟨x, L, rfl⟩
        rw [List.flatMap_cons, hxL]
        show recapitalize (c :: x :: (L ++ rest'.flatMap underscoreChar)) = c :: d :: rest'
        rw [recapitalize, if_neg (isAlpha_ne_underscore c hc)]
        have hshape : x :: (L ++ rest'.flatMap underscoreChar) =
            (d :: rest').flatMap underscoreChar := by
          rw [List.flatMap_cons, hxL]
          rfl
        rw [hshape, ih hrest]

/-- Claim C5, amended: for a non-empty alphabetic string the conversion
succeeds, the result has no leading underscore, and the reconstruction
recovers the input — verbatim when the input starts with a lowercase letter,
and after additionally re-capitalizing the first character when the input
starts with an uppercase letter (the conversion erases that initial case
distinction, so the claim's plain per-boundary re-capitalization alone cannot
reconstruct a CamelCase input); in particular `ObsCorrelationScatter` maps to
`obs_correlation_scatter`. -/
theorem c5_camelcase_underscore_amended :
    (∀ s : List Char, s ≠ [] → (∀ c ∈ s, c.isAlpha) →
      ∃ r, camelcase_to_underscore s = .ok r ∧
        r.head? ≠ some '_' ∧
        (s.head?.map Char.isUpper = some true →
          capitalize_first (recapitalize r) = s) ∧
        (s.head?.map Char.isUpper = some false → recapitalize r = s)) ∧
    camelcase_to_underscore (("ObsCorrelationScatter").toList) =
      .ok (("obs_correlation_scatter").toList) := by
  constructor
  · intro s hne halpha
    obtain ⟨c, rest, rfl⟩ : ∃ c rest, s = c :: rest := by
      cases s with
      | nil => exact absurd rfl hne
      | cons c rest => exact ⟨c, rest, rfl⟩
    have hc : c.isAlpha := halpha c (by simp)
    have hrest : ∀ d ∈ rest, d.isAlpha := fun d hd => halpha d (by simp [hd])
    have hpy : pyIsAlpha (c :: rest) = true := by
      unfold pyIsAlpha
      simp only [List.isEmpty_cons, Bool.not_false, Bool.true_and, List.all_eq_true]
      exact halpha
    by_cases hu : c.isUpper
    · refine ⟨c.toLower :: rest.flatMap underscoreChar, ?_, ?_, ?_, ?_⟩
      · rw [camelcase_to_underscore, if_pos hpy, List.flatMap_cons,
          underscoreChar_of_isUpper c hu]
        simp [stripLeadUnderscore]
      · simp only [List.head?_cons, ne_eq, Option.some.injEq]
        exact toLower_ne_underscore c hu
      · intro _
        have hstep : recapitalize (c.toLower :: rest.flatMap underscoreChar) =
            c.toLower :: recapitalize (rest.flatMap underscoreChar) := by
          cases hr : rest.flatMap underscoreChar with
          | nil => simp [recapitalize]
          | cons y L' => rw [recapitalize, if_neg (toLower_ne_underscore c hu)]
        rw [hstep]
        show (c.toLower).toUpper :: recapitalize (rest.flatMap underscoreChar) = c :: rest
        rw [toUpper_toLower_of_isUpper c hu, recapitalize_flatMap rest hrest]
      · intro hlow
        simp only [List.head?_cons, Option.map] at hlow
        exact absurd hu (by simp_all)
    · refine ⟨c :: rest.flatMap underscoreChar, ?_, ?_, ?_, ?_⟩
      · rw [camelcase_to_underscore, if_pos hpy, List.flatMap_cons,
          underscoreChar_of_not_isUpper c hu]
        simp [stripLeadUnderscore, isAlpha_ne_underscore c hc]
      · simp only [List.head?_cons, ne_eq, Option.some.injEq]
        exact isAlpha_ne_underscore c hc
      · intro hup
        simp only [List.head?_cons, Option.map] at hup
        exact absurd (by simp_all : c.isUpper = true) hu
      · intro _
        have := recapitalize_flatMap (c :: rest) halpha
        rwa [List.flatMap_cons, underscoreChar_of_not_isUpper c hu] at this
  · rfl

/-- Claim C5, counterexample: for the non-empty alphabetic input `Ab` the
conversion yields `ab`, and re-capitalizing the result at each
underscore-letter boundary gives back `ab`, not the original `Ab` — so the
claim's reconstruction property fails as stated (the stripped leading
underscore loses the case of the first letter). -/
theorem c5_counterexample :
    camelcase_to_underscore (("Ab").toList) = .ok (("ab").toList) ∧
    recapitalize (("ab").toList) = ("ab").toList ∧
    ("ab").toList ≠ ("Ab").toList := by
  refine ⟨rfl, by decide, by decide⟩

/-- Claim C5, witness: the amended theorem applied to the concrete input
`ObsCorrelationScatter`. -/
theorem c5_camelcase_underscore_amended_witness :
    ∃ r, camelcase_to_underscore (("ObsCorrelationScatter").toList) = .ok r ∧
      r.head? ≠ some '_' ∧
      ((("ObsCorrelationScatter").toList).head?.map Char.isUpper = some true →
        capitalize_first (recapitalize r) = ("ObsCorrelationScatter").toList) ∧
      ((("ObsCorrelationScatter").toList).head?.map Char.isUpper = some false →
        recapitalize r = ("ObsCorrelationScatter").toList) :=
  c5_camelcase_underscore_amended.1 (("ObsCorrelationScatter").toList)
    (by decide) (by decide)

/-! ## Claim C3 -/

/-- Claim C3, counterexample: with a figure configuration holding every
structural key, a save operation that raises leaves `closeFigure` out of the
event trace of `make_figure` — the claim's "resources are released even when
save fails" is false of the straight-line `save` + `close` sequence at lines
143-145, which has no `finally`. -/
theorem c3_counterexample :
    FigEvent.closeFigure ∉
      (make_figure_tail
        [(layout_key, PyVal.list [PyVal.int 1, PyVal.int 1]),
         (file_type_key, PyVal.str (("png").toList)),
         (output_path_key, PyVal.str (("./").toList)),
         (figure_size_key, PyVal.list [PyVal.int 8, PyVal.int 6]),
         (title_key, PyVal.str (("t").toList))] true).1 := by
  decide

/-- Claim C3, amended: in the figure-assembly tail, `close_figure` runs
exactly when the external save ran and did not raise; when save raises, the
exception propagates out of `make_figure` and the figure is not closed. -/
theorem c3_close_iff_save_succeeds (figure_conf : Dict) (save_raises : Bool)
    (hok : ∃ d, get_saveargs_update figure_conf = .ok d)
    (hlay : dContains figure_conf layout_key = true)
    (hsize : dContains figure_conf figure_size_key = true) :
    (FigEvent.closeFigure ∈ (make_figure_tail figure_conf save_raises).1 ↔
      save_raises = false) ∧
    (save_raises = true →
      FigEvent.saveFigure ∈ (make_figure_tail figure_conf save_raises).1 ∧
      (make_figure_tail figure_conf save_raises).2 = some .saveError) := by
  obtain ⟨d, hd⟩ := hok
  obtain ⟨vl, hvl⟩ : ∃ v, dLookup figure_conf layout_key = some v := by
    unfold dContains at hlay
    cases h : dLookup figure_conf layout_key with
    | none => rw [h] at hlay; simp at hlay
    | some v => exact ⟨v, rfl⟩
  obtain ⟨vs, hvs⟩ : ∃ v, dLookup figure_conf figure_size_key = some v := by
    unfold dContains at hsize
    cases h : dLookup figure_conf figure_size_key with
    | none => rw [h] at hsize; simp at hsize
    | some v => exact ⟨v, rfl⟩
  unfold make_figure_tail
  rw [show dIndex figure_conf layout_key = .ok vl from by simp [dIndex, hvl]]
  rw [show dIndex figure_conf figure_size_key = .ok vs from by simp [dIndex, hvs]]
  rw [hd]
  cases save_raises <;>
    cases htitle : dContains figure_conf title_key <;>
      simp [htitle]

/-- Claim C3, witness: the amended theorem applied to a concrete
configuration, for both outcomes of the external save. -/
theorem c3_close_iff_save_succeeds_witness :
    (FigEvent.closeFigure ∈
        (make_figure_tail
          [(layout_key, PyVal.list [PyVal.int 1, PyVal.int 1]),
           (file_type_key, PyVal.str (("png").toList)),
           (output_path_key, PyVal.str (("./").toList)),
           (figure_size_key, PyVal.list [PyVal.int 8, PyVal.int 6]),
           (title_key, PyVal.str (("t").toList))] false).1 ↔
        false = false) ∧
      (false = true →
        FigEvent.saveFigure ∈
          (make_figure_tail
            [(layout_key, PyVal.list [PyVal.int 1, PyVal.int 1]),
             (file_type_key, PyVal.str (("png").toList)),
             (output_path_key, PyVal.str (("./").toList)),
             (figure_size_key, PyVal.list [PyVal.int 8, PyVal.int 6]),
             (title_key, PyVal.str (("t").toList))] false).1 ∧
        (make_figure_tail
            [(layout_key, PyVal.list [PyVal.int 1, PyVal.int 1]),
             (file_type_key, PyVal.str (("png").toList)),
             (output_path_key, PyVal.str (("./").toList)),
             (figure_size_key, PyVal.list [PyVal.int 8, PyVal.int 6]),
             (title_key, PyVal.str (("t").toList))] false).2 = some .saveError) :=
  c3_close_iff_save_succeeds _ false
    ⟨[(format_key, PyVal.str (("png").toList))], by rfl⟩ (by rfl) (by rfl)

/-! ## Claim C4 -/

/-- Claim C4 (code_bug evidence): the claim says computing save arguments
succeeds when `title` is absent and defaults `format` to `png` when
`figure file type` is absent.  The embedded `get_saveargs` instead raises:
with every structural key but `title` present it raises `KeyError('title')`
at the unconditional `del out_conf['title']`, and with `figure file type`
absent it raises `KeyError('figure file type')` at the direct read of line
150 rather than defaulting. -/
theorem c4_saveargs_raises :
    get_saveargs [(0, sample_no_title_conf)] 0 = .error (.keyError title_key) ∧
    get_saveargs [(0, sample_no_file_type_conf)] 0 =
      .error (.keyError file_type_key) :=
  ⟨rfl, rfl⟩

/-! ## Association-list (dict) lemmas -/

theorem mem_keys_iff_dContains (d : Dict) (k : List Char) :
    dContains d k = true ↔ k ∈ d.map Prod.fst := by
  induction d with
  | nil =>
    simp only [dContains, dLookup, List.map_nil]
    constructor
    · intro h
      exact absurd h (by simp)
    · intro h
      exact absurd h (by simp)
  | cons e rest ih =>
    simp only [dContains, dLookup, List.map_cons, List.mem_cons]
    by_cases h : e.1 = k
    · simp [h]
    · simp only [if_neg h]
      rw [← dContains]
      rw [ih]
      constructor
      · exact fun hm => Or.inr hm
      · rintro (hk | hm)
        · exact absurd hk.symm h
        · exact hm

theorem dLookup_none_of_not_mem (d : Dict) (k : List Char)
    (h : k ∉ d.map Prod.fst) : dLookup d k = none := by
  have : ¬dContains d k = true := fun hc => h ((mem_keys_iff_dContains d k).mp hc)
  unfold dContains at this
  cases hl : dLookup d k with
  | none => rfl
  | some v => rw [hl] at this; simp at this

theorem dLookup_dSet (d : Dict) (k : List Char) (v : PyVal) (k' : List Char) :
    dLookup (dSet d k v) k' = if k = k' then some v else dLookup d k' := by
  induction d with
  | nil =>
    simp only [dSet, dLookup]
  | cons e rest ih =>
    by_cases h1 : e.1 = k
    · rw [show dSet (e :: rest) k v = (k, v) :: rest from by simp [dSet, h1]]
      by_cases h2 : k = k'
      · simp [dLookup, h2]
      · have h3 : ¬e.1 = k' := fun hq => h2 (h1.symm.trans hq)
        simp [dLookup, h2, h3]
    · rw [show dSet (e :: rest) k v = e :: dSet rest k v from by simp [dSet, h1]]
      by_cases h3 : e.1 = k'
      · have h2 : ¬k = k' := fun hq => h1 (h3.trans hq.symm)
        simp [dLookup, h3, h2]
      · simp [dLookup, h3, ih]

theorem keys_dSet_of_mem (d : Dict) (k : List Char) (v : PyVal)
    (h : k ∈ d.map Prod.fst) :
    (dSet d k v).map Prod.fst = d.map Prod.fst := by
  induction d with
  | nil => simp at h
  | cons e rest ih =>
    simp only [dSet]
    by_cases h1 : e.1 = k
    · simp [h1]
    · simp only [List.map_cons] at h ⊢
      rcases List.mem_cons.mp h with hk | hm
      · exact absurd hk.symm h1
      · rw [if_neg h1]
        simp [ih hm]

theorem keys_dSet_of_not_mem (d : Dict) (k : List Char) (v : PyVal)
    (h : k ∉ d.map Prod.fst) :
    (dSet d k v).map Prod.fst = d.map Prod.fst ++ [k] := by
  induction d with
  | nil => simp [dSet]
  | cons e rest ih =>
    simp only [List.map_cons, List.mem_cons] at h
    push_neg at h
    simp only [dSet, if_neg (fun he : e.1 = k => h.1 he.symm)]
    simp [ih h.2]

theorem keys_dSet_nodup (d : Dict) (k : List Char) (v : PyVal)
    (h : (d.map Prod.fst).Nodup) : ((dSet d k v).map Prod.fst).Nodup := by
  by_cases hm : k ∈ d.map Prod.fst
  · rw [keys_dSet_of_mem d k v hm]
    exact h
  · rw [keys_dSet_of_not_mem d k v hm]
    simp [List.nodup_append, h, hm]

/-- `del d[k]` on a present key: succeeds, leaves every other key's first
binding unchanged, only removes keys, and — under the dict invariant of
unique keys — removes `k` entirely and preserves the invariant. -/
theorem dDel_spec (d : Dict) (k : List Char) (h : dContains d k = true) :
    ∃ d2, dDel d k = .ok d2 ∧
      (∀ k', k' ≠ k → dLookup d2 k' = dLookup d k') ∧
      (∀ k', k' ∈ d2.map Prod.fst → k' ∈ d.map Prod.fst) ∧
      ((d.map Prod.fst).Nodup →
        (d2.map Prod.fst).Nodup ∧ dLookup d2 k = none) := by
  induction d with
  | nil => simp [dContains, dLookup] at h
  | cons e rest ih =>
    by_cases h1 : e.1 = k
    · refine ⟨rest, by simp [dDel, h1], ?_, ?_, ?_⟩
      · intro k' hk'
        have h3 : ¬e.1 = k' := fun hq => hk' (hq.symm.trans h1)
        simp only [dLookup, if_neg h3]
      · intro k' hm
        simp [hm]
      · intro hnd
        simp only [List.map_cons, List.nodup_cons] at hnd
        refine ⟨hnd.2, dLookup_none_of_not_mem rest k (h1 ▸ hnd.1)⟩
    · have hrest : dContains rest k = true := by
        unfold dContains dLookup at h
        rwa [if_neg h1] at h
      obtain ⟨d2, hok, hlook, hsub, hnd⟩ := ih hrest
      refine ⟨e :: d2, ?_, ?_, ?_, ?_⟩
      · simp [dDel, h1, hok, Except.map]
      · intro k' hk'
        simp only [dLookup]
        rw [hlook k' hk']
      · intro k' hm
        simp only [List.map_cons, List.mem_cons] at hm ⊢
        rcases hm with hk | hm
        · exact Or.inl hk
        · exact Or.inr (hsub k' hm)
      · intro hnodup
        simp only [List.map_cons, List.nodup_cons] at hnodup ⊢
        obtain ⟨hd2, hnone⟩ := hnd hnodup.2
        refine ⟨⟨fun hm => hnodup.1 (hsub e.1 hm), hd2⟩, ?_⟩
        simp only [dLookup, if_neg h1]
        exact hnone

/-- Iterated deletion of a duplicate-free list of keys all present in a
dict with unique keys: succeeds, removes exactly those keys, and leaves all
other bindings unchanged. -/
theorem dDelAll_spec (ks : List (List Char)) :
    ∀ d : Dict, (d.map Prod.fst).Nodup → ks.Nodup →
      (∀ k ∈ ks, dContains d k = true) →
      ∃ d2, dDelAll d ks = .ok d2 ∧
        (d2.map Prod.fst).Nodup ∧
        (∀ k ∈ ks, dContains d2 k = false) ∧
        (∀ k', k' ∉ ks → dLookup d2 k' = dLookup d k') := by
  induction ks with
  | nil =>
    intro d hnd _ _
    exact ⟨d, rfl, hnd, by simp, fun _ _ => rfl⟩
  | cons k0 ks' ih =>
    intro d hnd hks hpresent
    obtain ⟨d1, hok1, hlook1, _, hnd1⟩ := dDel_spec d k0 (hpresent k0 (by simp))
    obtain ⟨hd1nodup, hd1none⟩ := hnd1 hnd
    have hks' : ks'.Nodup := (List.nodup_cons.mp hks).2
    have hk0notin : k0 ∉ ks' := (List.nodup_cons.mp hks).1
    have hpresent1 : ∀ k ∈ ks', dContains d1 k = true := by
      intro k hk
      have hne : k ≠ k0 := fun he => hk0notin (he ▸ hk)
      unfold dContains
      rw [hlook1 k hne]
      exact hpresent k (by simp [hk])
    obtain ⟨d2, hok2, hnodup2, hgone2, hkeep2⟩ := ih d1 hd1nodup hks' hpresent1
    refine ⟨d2, ?_, hnodup2, ?_, ?_⟩
    · simp only [dDelAll, hok1, Except.bind]
      exact hok2
    · intro k hk
      rcases List.mem_cons.mp hk with hk | hk
      · subst hk
        unfold dContains
        rw [hkeep2 _ hk0notin, hd1none]
        rfl
      · exact hgone2 k hk
    · intro k' hk'
      simp only [List.mem_cons, not_or] at hk'
      rw [hkeep2 k' hk'.2, hlook1 k' hk'.1]

/-! ## Claim C9 -/

/-- Claim C9: `get_saveargs` returns the very mapping object it was given
rather than a copy — the returned reference is the argument's address `a` —
after mutating it in place: on return the caller's figure configuration
(the heap entry at `a`) no longer contains `layout`, `figure file type`,
`output path`, `figure size` or `title`, has gained a `format` key bound to
the old `figure file type` value, and keeps every other binding unchanged. -/
theorem c9_get_saveargs_in_place (h : Heap) (a : Nat) (conf : Dict)
    (hl : hLookup h a = some conf)
    (hnd : (conf.map Prod.fst).Nodup)
    (hk : ∀ k ∈ delvars, dContains conf k = true) :
    ∃ conf2, get_saveargs h a = .ok (a, hUpdate h a conf2) ∧
      (∀ k ∈ delvars, dContains conf2 k = false) ∧
      dLookup conf2 format_key = dLookup conf file_type_key ∧
      dContains conf2 format_key = true ∧
      (∀ k, k ∉ delvars → k ≠ format_key → dLookup conf2 k = dLookup conf k) := by
  obtain ⟨v, hv⟩ : ∃ v, dLookup conf file_type_key = some v := by
    have hft := hk file_type_key (by simp [delvars])
    unfold dContains at hft
    cases hc : dLookup conf file_type_key with
    | none => rw [hc] at hft; simp at hft
    | some v => exact ⟨v, rfl⟩
  have hidx : dIndex conf file_type_key = .ok v := by simp [dIndex, hv]
  have hnd1 : ((dSet conf format_key v).map Prod.fst).Nodup :=
    keys_dSet_nodup conf format_key v hnd
  have hpres1 : ∀ k ∈ delvars, dContains (dSet conf format_key v) k = true := by
    intro k hkk
    have hne : ¬format_key = k := by
      intro he
      subst he
      revert hkk
      decide
    unfold dContains
    rw [dLookup_dSet, if_neg hne]
    exact hk k hkk
  obtain ⟨d2, hok, _, hgone, hkeep⟩ :=
    dDelAll_spec delvars (dSet conf format_key v) hnd1 (by decide) hpres1
  have hfmt_notin : format_key ∉ delvars := by decide
  have hfmt2 : dLookup d2 format_key = some v := by
    rw [hkeep format_key hfmt_notin, dLookup_dSet, if_pos rfl]
  refine ⟨d2, ?_, hgone, ?_, ?_, ?_⟩
  · unfold get_saveargs
    rw [hl]
    simp only [get_saveargs_update, hidx, bind, Except.bind, Except.map, hok]
  · rw [hfmt2, hv]
  · unfold dContains
    rw [hfmt2]
    rfl
  · intro k hknot hne
    rw [hkeep k hknot, dLookup_dSet, if_neg (fun he => hne he.symm)]

/-- Claim C9, witness: the theorem applied to a concrete one-object heap
holding a full figure configuration. -/
theorem c9_get_saveargs_in_place_witness :
    ∃ conf2, get_saveargs [(0, sample_full_conf)] 0 =
        .ok (0, hUpdate [(0, sample_full_conf)] 0 conf2) ∧
      (∀ k ∈ delvars, dContains conf2 k = false) ∧
      dLookup conf2 format_key = dLookup sample_full_conf file_type_key ∧
      dContains conf2 format_key = true ∧
      (∀ k, k ∉ delvars → k ≠ format_key →
        dLookup conf2 k = dLookup sample_full_conf k) :=
  c9_get_saveargs_in_place [(0, sample_full_conf)] 0 sample_full_conf rfl
    (by decide) (by decide)

/-! ## Claim C6: the batch loop and the distinctness of titles -/

theorem foldl_append_eq_map (channels : List PyScalar) (f : PyScalar → BatchCtx) :
    ∀ acc : List BatchCtx,
      channels.foldl (fun a c => a ++ [f c]) acc = acc ++ channels.map f := by
  induction channels with
  | nil => intro acc; simp
  | cons c rest ih =>
    intro acc
    simp only [List.foldl_cons, List.map_cons]
    rw [ih (acc ++ [f c])]
    simp

/-- The nested loops visit the variables in the outer position and the
channels in the inner position, in their given orders. -/
theorem execute_batch_loop_eq (var_list : List (List Char)) (channels : List PyScalar) :
    execute_batch_loop var_list channels =
      var_list.flatMap (fun v => channels.map (fun c => batch_conf_this v c)) := by
  suffices hgen : ∀ acc : List BatchCtx,
      var_list.foldl
        (fun acc v => channels.foldl (fun a c => a ++ [batch_conf_this v c]) acc) acc =
      acc ++ var_list.flatMap (fun v => channels.map (fun c => batch_conf_this v c)) by
    have := hgen []
    simpa [execute_batch_loop] using this
  induction var_list with
  | nil => intro acc; simp
  | cons v rest ih =>
    intro acc
    simp only [List.foldl_cons, List.flatMap_cons]
    rw [foldl_append_eq_map channels (fun c => batch_conf_this v c) acc, ih]
    simp

theorem batch_title_eq (v : List Char) (c : PyScalar) :
    (batch_conf_this v c).variable_title =
      title_with_channel (var_title_of v) (pyStr c) := by
  unfold batch_conf_this title_with_channel
  by_cases h : pyStr c = none_str
  · simp [h]
  · simp [h, List.append_assoc]

theorem batch_variable_eq (v : List Char) (c : PyScalar) :
    (batch_conf_this v c).variable_name = v := by
  unfold batch_conf_this
  by_cases h : pyStr c = none_str <;> simp [h]

theorem dot_mem_ch_sep : ('.') ∈ ch_sep := by decide

/-- The delimiter `' Ch. '` cannot begin inside a dot-free prefix: if
`ch_sep ++ c1` equals `t2 ++ ch_sep ++ c2` with `'.' ∉ t2`, then `t2` is
empty. -/
theorem sep_nil_case (t2 c1 c2 : List Char) (h2 : ('.') ∉ t2)
    (he : ch_sep ++ c1 = t2 ++ (ch_sep ++ c2)) : t2 = [] ∧ c1 = c2 := by
  cases t2 with
  | nil =>
    refine ⟨rfl, ?_⟩
    simp only [List.nil_append] at he
    exact List.append_cancel_left he
  | cons a t2' =>
    simp only [List.cons_append] at he
    have he0 : ch_sep ++ c1 =
        ' ' :: 'C' :: 'h' :: '.' :: ' ' :: c1 := rfl
    rw [he0] at he
    injection he with ha he
    cases t2' with
    | nil =>
      simp only [List.nil_append] at he
      have : ch_sep ++ c2 = ' ' :: 'C' :: 'h' :: '.' :: ' ' :: c2 := rfl
      rw [this] at he
      injection he with hb _
      exact absurd hb (by decide)
    | cons b t2'' =>
      simp only [List.cons_append] at he
      injection he with hb he
      cases t2'' with
      | nil =>
        simp only [List.nil_append] at he
        have : ch_sep ++ c2 = ' ' :: 'C' :: 'h' :: '.' :: ' ' :: c2 := rfl
        rw [this] at he
        injection he with hd _
        exact absurd hd (by decide)
      | cons d t2''' =>
        simp only [List.cons_append] at he
        injection he with hd he
        cases t2''' with
        | nil =>
          simp only [List.nil_append] at he
          have : ch_sep ++ c2 = ' ' :: 'C' :: 'h' :: '.' :: ' ' :: c2 := rfl
          rw [this] at he
          injection he with hdot _
          exact absurd hdot (by decide)
        | cons x t2'''' =>
          simp only [List.cons_append] at he
          injection he with hdot he
          exact absurd (by rw [← hdot]; simp : ('.') ∈ a :: b :: d :: x :: t2'''')
            h2

/-- Splitting at the `' Ch. '` delimiter is unambiguous when the prefixes
are dot-free. -/
theorem sep_split_inj (t1 : List Char) :
    ∀ t2 c1 c2 : List Char, ('.') ∉ t1 → ('.') ∉ t2 →
      t1 ++ (ch_sep ++ c1) = t2 ++ (ch_sep ++ c2) → t1 = t2 ∧ c1 = c2 := by
  induction t1 with
  | nil =>
    intro t2 c1 c2 _ h2 he
    simp only [List.nil_append] at he
    obtain ⟨ht2, hc⟩ := sep_nil_case t2 c1 c2 h2 he
    exact ⟨ht2.symm, hc⟩
  | cons a t1' ih =>
    intro t2 c1 c2 h1 h2 he
    cases t2 with
    | nil =>
      simp only [List.nil_append] at he
      obtain ⟨ht, _⟩ := sep_nil_case (a :: t1') c2 c1 h1 he.symm
      exact absurd ht (by simp)
    | cons b t2' =>
      simp only [List.cons_append] at he
      injection he with hab he
      have h1' : ('.') ∉ t1' := fun hm => h1 (by simp [hm])
      have h2' : ('.') ∉ t2' := fun hm => h2 (by simp [hm])
      obtain ⟨ht, hc⟩ := ih t2' c1 c2 h1' h2' he
      exact ⟨by rw [hab, ht], hc⟩

/-- For a fixed variable title, the iteration title determines the channel
string. -/
theorem title_with_channel_inj_right (t : List Char) :
    Function.Injective (title_with_channel t) := by
  intro s1 s2 he
  unfold title_with_channel at he
  by_cases hs1 : s1 = none_str <;> by_cases hs2 : s2 = none_str
  · rw [hs1, hs2]
  · rw [if_pos hs1, if_neg hs2] at he
    have := congrArg List.length he
    simp [ch_sep] at this
  · rw [if_neg hs1, if_pos hs2] at he
    have := congrArg List.length he
    simp [ch_sep] at this
  · rw [if_neg hs1, if_neg hs2] at he
    have := List.append_cancel_left (List.append_cancel_left he)
    exact this

/-- Across variables, equal iteration titles force equal variable titles
when the variable titles are dot-free. -/
theorem title_with_channel_cross (t1 t2 s1 s2 : List Char)
    (h1 : ('.') ∉ t1) (h2 : ('.') ∉ t2)
    (he : title_with_channel t1 s1 = title_with_channel t2 s2) : t1 = t2 := by
  unfold title_with_channel at he
  by_cases hs1 : s1 = none_str <;> by_cases hs2 : s2 = none_str
  · rwa [if_pos hs1, if_pos hs2] at he
  · rw [if_pos hs1, if_neg hs2] at he
    have hmem : ('.') ∈ t2 ++ (ch_sep ++ s2) := by
      simp [dot_mem_ch_sep]
    rw [← he] at hmem
    exact absurd hmem h1
  · rw [if_neg hs1, if_pos hs2] at he
    have hmem : ('.') ∈ t1 ++ (ch_sep ++ s1) := by
      simp [dot_mem_ch_sep]
    rw [he] at hmem
    exact absurd hmem h2
  · rw [if_neg hs1, if_neg hs2] at he
    exact (sep_split_inj t1 t2 s1 s2 h1 h2 he).1

/-- The titles produced by the nested loops are pairwise distinct when the
derived variable titles are pairwise distinct and dot-free and the channel
string forms are pairwise distinct. -/
theorem titles_nodup (V : List (List Char)) (C' : List PyScalar)
    (hT : (V.map var_title_of).Nodup)
    (hdot : ∀ v ∈ V, ('.') ∉ var_title_of v)
    (hC : (C'.map pyStr).Nodup) :
    ((V.flatMap (fun v => C'.map (fun c => batch_conf_this v c))).map
      BatchCtx.variable_title).Nodup := by
  induction V with
  | nil => simp
  | cons v V' ih =>
    rw [List.flatMap_cons, List.map_append]
    have hfun : ∀ c : PyScalar, BatchCtx.variable_title (batch_conf_this v c) =
        title_with_channel (var_title_of v) (pyStr c) := fun c => batch_title_eq v c
    apply List.Nodup.append
    · rw [List.map_map]
      have heq : (C'.map (BatchCtx.variable_title ∘ batch_conf_this v)) =
          (C'.map pyStr).map (title_with_channel (var_title_of v)) := by
        rw [List.map_map]
        exact List.map_congr_left (fun c _ => hfun c)
      rw [heq]
      exact hC.map (title_with_channel_inj_right (var_title_of v))
    · exact ih (by simpa using hT.of_cons)
        (fun u hu => hdot u (by simp [hu]))
    · intro x hx1 hx2
      obtain ⟨b1, hb1, rfl⟩ := List.mem_map.mp hx1
      obtain ⟨c1, hc1, rfl⟩ := List.mem_map.mp hb1
      obtain ⟨b2, hb2, hxeq⟩ := List.mem_map.mp hx2
      obtain ⟨v', hv', hb2'⟩ := List.mem_flatMap.mp hb2
      obtain ⟨c2, hc2, rfl⟩ := List.mem_map.mp hb2'
      rw [batch_title_eq v' c2, batch_title_eq v c1] at hxeq
      have hTv : var_title_of v = var_title_of v' :=
        title_with_channel_cross _ _ _ _
          (hdot v (by simp)) (hdot v' (by simp [hv'])) hxeq.symm
      have hmemT : var_title_of v ∈ V'.map var_title_of :=
        List.mem_map.mpr ⟨v', hv', hTv.symm⟩
      have : var_title_of v ∉ V'.map var_title_of := by
        have := hT
        simp only [List.map_cons, List.nodup_cons] at this
        exact this.1
      exact this hmemT

theorem length_flatMap_const {α β : Type} (l : List α) (f : α → List β) (m : Nat)
    (h : ∀ a ∈ l, (f a).length = m) : (l.flatMap f).length = l.length * m := by
  induction l with
  | nil => simp
  | cons a rest ih =>
    rw [List.flatMap_cons, List.length_append, h a (by simp),
      ih (fun b hb => h b (by simp [hb]))]
    simp [Nat.succ_mul, Nat.add_comm]

/-- Claim C6, counterexample: with the duplicate variables list
`['a', 'a']` and no channels, the batch expansion produces two pairs whose
`variable_title` values coincide (both are `'A'`) — the claim's "each
produced pair has a distinct variable_title" is false as stated. -/
theorem c6_counterexample :
    ∃ ctxs, execute_batch [("a").toList, ("a").toList] [] = .ok ctxs ∧
      ctxs.length = 2 ∧ ¬(ctxs.map BatchCtx.variable_title).Nodup := by
  refine ⟨execute_batch_loop [("a").toList, ("a").toList]
    (effective_channels []), rfl, by decide, by decide⟩

/-- Claim C6, amended: for every non-empty variables list and every channels
list the batch branch succeeds and produces exactly
`len(variables) * max(len(channels), 1)` (figure, plots) configuration
pairs, iterated with variables as the outer loop and channels as the inner
loop in their given order — unconditionally; the produced `variable_title`
values are moreover pairwise distinct provided the derived variable titles
are pairwise distinct and contain no `'.'` character and the channels'
string forms are pairwise distinct (that proviso conditions only the
distinctness conjunct; without it duplicates arise, e.g. from repeated
variables). -/
theorem c6_batch_expansion_amended (var_list : List (List Char))
    (C : List PyScalar) (fig plots : PyVal)
    (hV : var_list ≠ []) :
    ∃ ctxs, execute_batch var_list C = .ok ctxs ∧
      ctxs = var_list.flatMap
        (fun v => (effective_channels C).map (fun c => batch_conf_this v c)) ∧
      (batch_pairs fig plots ctxs).length = var_list.length * max C.length 1 ∧
      ((var_list.map var_title_of).Nodup →
        (∀ v ∈ var_list, ('.') ∉ var_title_of v) →
        (C.map pyStr).Nodup →
        (ctxs.map BatchCtx.variable_title).Nodup) := by
  have hVne : var_list.isEmpty = false := by
    cases var_list with
    | nil => exact absurd rfl hV
    | cons a b => rfl
  refine ⟨execute_batch_loop var_list (effective_channels C), ?_, ?_, ?_, ?_⟩
  · simp [execute_batch, hVne]
  · exact execute_batch_loop_eq _ _
  · unfold batch_pairs
    rw [List.length_map, execute_batch_loop_eq]
    rw [length_flatMap_const _ _ (effective_channels C).length
      (fun v _ => by rw [List.length_map])]
    congr 1
    unfold effective_channels
    cases C with
    | nil => simp
    | cons c cs => simp
  · intro hT hdot hC
    rw [execute_batch_loop_eq]
    apply titles_nodup _ _ hT hdot
    unfold effective_channels
    cases C with
    | nil => simp
    | cons c cs => simpa using hC

/-- Claim C6, witness: the amended theorem applied to variables
`['temperature']` and channels `[1, 2]`. -/
theorem c6_batch_expansion_amended_witness :
    ∃ ctxs, execute_batch [("temperature").toList] [.int 1, .int 2] = .ok ctxs ∧
      ctxs = [("temperature").toList].flatMap
        (fun v => (effective_channels [.int 1, .int 2]).map
          (fun c => batch_conf_this v c)) ∧
      (batch_pairs (.dict []) (.dict []) ctxs).length =
        ([("temperature").toList] : List (List Char)).length *
          max ([PyScalar.int 1, PyScalar.int 2] : List PyScalar).length 1 ∧
      ((([("temperature").toList] : List (List Char)).map var_title_of).Nodup →
        (∀ v ∈ ([("temperature").toList] : List (List Char)),
          ('.') ∉ var_title_of v) →
        (([PyScalar.int 1, PyScalar.int 2] : List PyScalar).map pyStr).Nodup →
        (ctxs.map BatchCtx.variable_title).Nodup) :=
  c6_batch_expansion_amended [("temperature").toList] [.int 1, .int 2]
    (.dict []) (.dict []) (by decide)

/-! ## Claim C7 -/

/-- Claim C7: for every (variable, channel) pair of a batch expansion the
substitution context binds `variable` to the raw variable name and
`variable_title` to the variable name with underscores replaced by spaces
and title-cased; when the channel's string form is not the sentinel `none`,
the context additionally binds `channel` to that string form and the title
gains the `' Ch. <channel>'` suffix; in particular variables
`['temperature']` with channels `'1-2'` yield exactly the titles
`'Temperature Ch. 1'` and `'Temperature Ch. 2'`. -/
theorem c7_batch_context :
    (∀ (v : List Char) (c : PyScalar),
      (batch_conf_this v c).variable_name = v ∧
      (pyStr c = none_str →
        (batch_conf_this v c).variable_title = var_title_of v ∧
        (batch_conf_this v c).channel = none) ∧
      (pyStr c ≠ none_str →
        (batch_conf_this v c).variable_title =
          var_title_of v ++ ch_sep ++ pyStr c ∧
        (batch_conf_this v c).channel = some (pyStr c))) ∧
    parse_channel_list (.str (("1-2").toList)) = [.int 1, .int 2] ∧
    execute_batch [("temperature").toList]
        (parse_channel_list (.str (("1-2").toList))) =
      .ok [⟨("temperature").toList, ("Temperature Ch. 1").toList,
            some (("1").toList)⟩,
           ⟨("temperature").toList, ("Temperature Ch. 2").toList,
            some (("2").toList)⟩] := by
  refine ⟨?_, rfl, rfl⟩
  intro v c
  refine ⟨batch_variable_eq v c, ?_, ?_⟩
  · intro h
    unfold batch_conf_this
    simp [h]
  · intro h
    unfold batch_conf_this
    simp [h]

/-- Claim C7, witness: the context built for variable `temperature` and
channel `1`, whose string form is not the sentinel. -/
theorem c7_batch_context_witness :
    (batch_conf_this (("temperature").toList) (PyScalar.int 1)).variable_title =
      var_title_of (("temperature").toList) ++ ch_sep ++ pyStr (PyScalar.int 1) ∧
    (batch_conf_this (("temperature").toList) (PyScalar.int 1)).channel =
      some (pyStr (PyScalar.int 1)) :=
  (c7_batch_context.1 (("temperature").toList) (PyScalar.int 1)).2.2 (by decide)

/-! ## Claim C10 -/

/-- Claim C10: a channel value whose string form equals `none` is
indistinguishable from the no-channel sentinel — its substitution context
gets no `channel` binding and no title suffix, and a batch run over exactly
that channel equals the batch run with an empty channels list. -/
theorem c10_none_channel_sentinel (c : PyScalar) (hc : pyStr c = none_str) :
    (∀ v : List Char,
      (batch_conf_this v c).channel = none ∧
      (batch_conf_this v c).variable_title = var_title_of v) ∧
    ∀ var_list : List (List Char),
      execute_batch var_list [c] = execute_batch var_list [] := by
  have hctx : ∀ v, batch_conf_this v c =
      { variable_name := v, variable_title := var_title_of v, channel := none } := by
    intro v
    unfold batch_conf_this
    simp [hc]
  have hpoint : ∀ v, batch_conf_this v c =
      batch_conf_this v (.str none_str) := by
    intro v
    rw [hctx v]
    unfold batch_conf_this
    simp [pyStr]
  constructor
  · intro v
    rw [hctx v]
    exact ⟨rfl, rfl⟩
  · intro var_list
    unfold execute_batch
    cases hV : var_list.isEmpty
    · simp only [Bool.false_eq_true, if_false]
      congr 1
      rw [execute_batch_loop_eq, execute_batch_loop_eq]
      exact congrArg _ (funext fun v => by
        simp [effective_channels, hpoint v])
    · simp

/-- Claim C10, witness: the literal channel value `'none'`. -/
theorem c10_none_channel_sentinel_witness :
    (∀ v : List Char,
      (batch_conf_this v (PyScalar.str (("none").toList))).channel = none ∧
      (batch_conf_this v (PyScalar.str (("none").toList))).variable_title =
        var_title_of v) ∧
    ∀ var_list : List (List Char),
      execute_batch var_list [PyScalar.str (("none").toList)] =
        execute_batch var_list [] :=
  c10_none_channel_sentinel (PyScalar.str (("none").toList)) (by decide)

/-! ## Claim C8: freshness of the allocated configuration pairs -/

mutual

theorem annotate_range (n : Nat) (v : PyVal) :
    n ≤ (annotate n v).2 ∧
    ∀ a ∈ annAddrs (annotate n v).1, n ≤ a ∧ a < (annotate n v).2 := by
  cases v with
  | int i => exact ⟨Nat.le_refl n, by simp [annotate, annAddrs]⟩
  | str s => exact ⟨Nat.le_refl n, by simp [annotate, annAddrs]⟩
  | list xs =>
    obtain ⟨hle, hmem⟩ := annotateList_range (n + 1) xs
    refine ⟨by simp [annotate]; omega, ?_⟩
    intro a ha
    simp only [annotate, annAddrs] at ha ⊢
    rcases List.mem_cons.mp ha with h | h
    · subst h
      omega
    · have := hmem a h
      omega
  | dict es =>
    obtain ⟨hle, hmem⟩ := annotateEntries_range (n + 1) es
    refine ⟨by simp [annotate]; omega, ?_⟩
    intro a ha
    simp only [annotate, annAddrs] at ha ⊢
    rcases List.mem_cons.mp ha with h | h
    · subst h
      omega
    · have := hmem a h
      omega

theorem annotateList_range (n : Nat) (xs : List PyVal) :
    n ≤ (annotateList n xs).2 ∧
    ∀ a ∈ annAddrsList (annotateList n xs).1,
      n ≤ a ∧ a < (annotateList n xs).2 := by
  cases xs with
  | nil => exact ⟨Nat.le_refl n, by simp [annotateList, annAddrsList]⟩
  | cons v rest =>
    obtain ⟨h1le, h1mem⟩ := annotate_range n v
    obtain ⟨h2le, h2mem⟩ := annotateList_range (annotate n v).2 rest
    refine ⟨by simp [annotateList]; omega, ?_⟩
    intro a ha
    simp only [annotateList, annAddrsList] at ha ⊢
    rcases List.mem_append.mp ha with h | h
    · have := h1mem a h
      omega
    · have := h2mem a h
      omega

theorem annotateEntries_range (n : Nat) (es : List (List Char × PyVal)) :
    n ≤ (annotateEntries n es).2 ∧
    ∀ a ∈ annAddrsEntries (annotateEntries n es).1,
      n ≤ a ∧ a < (annotateEntries n es).2 := by
  cases es with
  | nil => exact ⟨Nat.le_refl n, by simp [annotateEntries, annAddrsEntries]⟩
  | cons e rest =>
    obtain ⟨h1le, h1mem⟩ := annotate_range n e.2
    obtain ⟨h2le, h2mem⟩ := annotateEntries_range (annotate n e.2).2 rest
    refine ⟨by simp [annotateEntries]; omega, ?_⟩
    intro a ha
    simp only [annotateEntries, annAddrsEntries] at ha ⊢
    rcases List.mem_append.mp ha with h | h
    · have := h1mem a h
      omega
    · have := h2mem a h
      omega

end

theorem alloc_pair_range (n : Nat) (fig plots : PyVal) (b : BatchCtx) :
    n ≤ (alloc_pair n fig plots b).2 ∧
    ∀ a ∈ pairAddrs (alloc_pair n fig plots b).1,
      n ≤ a ∧ a < (alloc_pair n fig plots b).2 := by
  obtain ⟨h1le, h1mem⟩ :=
    annotate_range n (replace_vars_dict (ctx_assoc b) fig)
  obtain ⟨h2le, h2mem⟩ :=
    annotate_range (annotate n (replace_vars_dict (ctx_assoc b) fig)).2
      (replace_vars_dict (ctx_assoc b) plots)
  refine ⟨by simp [alloc_pair]; omega, ?_⟩
  intro a ha
  simp only [alloc_pair, pairAddrs] at ha ⊢
  rcases List.mem_append.mp ha with h | h
  · have := h1mem a h
    omega
  · have := h2mem a h
    omega

theorem alloc_pairs_range (fig plots : PyVal) :
    ∀ (ctxs : List BatchCtx) (n : Nat),
      n ≤ (alloc_pairs n fig plots ctxs).2 ∧
      ∀ p ∈ (alloc_pairs n fig plots ctxs).1, ∀ a ∈ pairAddrs p,
        n ≤ a ∧ a < (alloc_pairs n fig plots ctxs).2 := by
  intro ctxs
  induction ctxs with
  | nil =>
    intro n
    exact ⟨Nat.le_refl n, by simp [alloc_pairs]⟩
  | cons b rest ih =>
    intro n
    obtain ⟨h1le, h1mem⟩ := alloc_pair_range n fig plots b
    obtain ⟨h2le, h2mem⟩ := ih (alloc_pair n fig plots b).2
    refine ⟨by simp [alloc_pairs]; omega, ?_⟩
    intro p hp a ha
    simp only [alloc_pairs] at hp ⊢
    rcases List.mem_cons.mp hp with h | h
    · subst h
      have := h1mem a ha
      omega
    · have := h2mem p h a ha
      omega

theorem alloc_pairs_pairwise (fig plots : PyVal) :
    ∀ (ctxs : List BatchCtx) (n : Nat),
      List.Pairwise (fun p q => ∀ a ∈ pairAddrs p, a ∉ pairAddrs q)
        (alloc_pairs n fig plots ctxs).1 := by
  intro ctxs
  induction ctxs with
  | nil =>
    intro n
    simp [alloc_pairs]
  | cons b rest ih =>
    intro n
    obtain ⟨h1le, h1mem⟩ := alloc_pair_range n fig plots b
    obtain ⟨h2le, h2mem⟩ := alloc_pairs_range fig plots rest (alloc_pair n fig plots b).2
    simp only [alloc_pairs, List.pairwise_cons]
    refine ⟨?_, ih _⟩
    intro q hq a ha haq
    have hlt := h1mem a ha
    have hge := h2mem q hq a haq
    omega

/-- Claim C8: each (figure, plots) configuration pair produced by one batch
iteration consists of freshly rebuilt objects (spec-modelled
`replace_vars_dict`): annotating the original configurations with addresses
below the allocation counter and running the iterations, no mapping or
sequence object of a produced pair is shared with the original inputs or
with the pair of any other iteration — so mutating one iteration's
configurations can touch neither the originals nor another iteration's
output. -/
theorem c8_batch_pairs_fresh (fig plots : PyVal) (ctxs : List BatchCtx) :
    List.Pairwise (fun p q => ∀ a ∈ pairAddrs p, a ∉ pairAddrs q)
      (alloc_pairs (annotate (annotate 0 fig).2 plots).2 fig plots ctxs).1 ∧
    ∀ p ∈ (alloc_pairs (annotate (annotate 0 fig).2 plots).2 fig plots ctxs).1,
      ∀ a ∈ pairAddrs p,
        a ∉ pairAddrs ((annotate 0 fig).1, (annotate (annotate 0 fig).2 plots).1) := by
  constructor
  · exact alloc_pairs_pairwise fig plots ctxs _
  · intro p hp a ha hmem
    obtain ⟨hfig_le, hfig_mem⟩ := annotate_range 0 fig
    obtain ⟨hplots_le, hplots_mem⟩ := annotate_range (annotate 0 fig).2 plots
    obtain ⟨hle, hmem'⟩ := alloc_pairs_range fig plots ctxs
      (annotate (annotate 0 fig).2 plots).2
    have hge := hmem' p hp a ha
    unfold pairAddrs at hmem
    rcases List.mem_append.mp hmem with h | h
    · have := hfig_mem a h
      omega
    · have := hplots_mem a h
      omega

end Eva
